import Mathlib

/-!
Verification of the CodeGrade front-end diff / whitespace-visualization
logic.  Text is modelled as `List Char` (a JavaScript string), and every
function below is a direct shallow embedding of the corresponding
JavaScript function.  Recursions are written with an explicit fuel
argument (always instantiated with the input length, which is an upper
bound on the number of loop iterations, since every iteration consumes at
least one character) so that all definitions reduce by `decide`/`rfl`.
-/

namespace CodeGrade

/-! ## `visualize.js` -/

/-- Embedding of `nSpaces`:
`Array(n + 1).join(sep)` is `sep` repeated `n` times, so the produced
markup is the span below with `n` middots in the `data-whitespace`
attribute and `n` literal spaces as content. -/
def nSpaces (n : Nat) : List Char :=
  "<span class=\"whitespace space\" data-whitespace=\"".data
    ++ (List.replicate n "&middot;".data).flatten
    ++ "\">".data
    ++ List.replicate n ' '
    ++ "</span><wbr>".data

/-- Embedding of `nTabs`: `Array(n + 1).join(oneTab)` is `oneTab`
repeated `n` times. -/
def nTabs (n : Nat) : List Char :=
  (List.replicate n "<span class=\"whitespace tab\" data-whitespace=\"&#8594;\">\t</span><wbr>".data).flatten

/-- `MAX_SPACES` from `visualize.js`. -/
def MAX_SPACES : Nat := 8

/-- `spacesCache = range(1, MAX_SPACES + 1).map(nSpaces)`:
the cache entries for runs of 1 up to 8 spaces. -/
def spacesCache : List (List Char) :=
  (List.range MAX_SPACES).map (fun i => nSpaces (i + 1))

/-- `MAX_TABS` from `visualize.js`. -/
def MAX_TABS : Nat := 4

/-- `tabsCache = range(1, MAX_TABS + 1).map(nTabs)`. -/
def tabsCache : List (List Char) :=
  (List.range MAX_TABS).map (fun i => nTabs (i + 1))

/-- One step of the cache-selection expression
`n % cache.length || cache.length` inside `visualizeWhitespace`:
the JavaScript `||` turns a zero remainder into `cache.length`. -/
def cacheIndex (L n : Nat) : Nat :=
  if n % L = 0 then L else n % L

/-- Fuel-indexed version of the inner `while (n > 0)` loop of
`visualizeWhitespace`: the list of sizes (`index` values) chosen for a
run of length `n`, given a cache of `L` entries. -/
def decomposeSizesF (L : Nat) : Nat → Nat → List Nat
  | 0, _ => []
  | _ + 1, 0 => []
  | f + 1, n + 1 =>
    cacheIndex L (n + 1) :: decomposeSizesF L f ((n + 1) - cacheIndex L (n + 1))

/-- The sizes of the cache entries `visualizeWhitespace` emits for a run
of length `n` (each step subtracts at least 1, so fuel `n` suffices). -/
def decomposeSizes (L n : Nat) : List Nat := decomposeSizesF L n n

/-- The character class tested by the final `else` branch of
`visualizeWhitespace`: not `<`, not a space, not a tab. -/
def notSpecial (c : Char) : Bool :=
  c != '<' && c != ' ' && c != '\t'

/-- Fuel-indexed scanner of `visualizeWhitespace`: returns the list of
segments pushed onto `newLine`.  Each branch mirrors one branch of the
JavaScript `for` loop:
* on `<`, copy up to and including the first `>` (or to the end of the
  line when there is none);
* on a space or tab, measure the run of that same character and emit the
  cache entries selected by `n % cache.length || cache.length`;
* otherwise copy the maximal run of non-special characters. -/
def vwGo : Nat → List Char → List (List Char)
  | 0, _ => []
  | _ + 1, [] => []
  | f + 1, c :: rest =>
    if c = '<' then
      let a := rest.takeWhile (fun d => d != '>')
      let b := rest.dropWhile (fun d => d != '>')
      if b.isEmpty then [c :: a]
      else ((c :: a) ++ ['>']) :: vwGo f b.tail
    else if c = ' ' || c = '\t' then
      let n := (rest.takeWhile (fun d => d == c)).length + 1
      let cache := if c = ' ' then spacesCache else tabsCache
      ((decomposeSizes cache.length n).map (fun s => cache.getD (s - 1) []))
        ++ vwGo f (rest.dropWhile (fun d => d == c))
    else
      (c :: rest.takeWhile notSpecial) :: vwGo f (rest.dropWhile notSpecial)

/-- The segments `visualizeWhitespace` pushes for a whole line. -/
def vwSegs (line : List Char) : List (List Char) := vwGo line.length line

/-- Embedding of `visualizeWhitespace`: `newLine.join('')`. -/
def visualizeWhitespace (line : List Char) : List Char := (vwSegs line).flatten

/-- The decomposition described by the specification: at every step
choose the largest cache entry size (the sizes present are `1..L`) not
exceeding the remaining run length, i.e. `min r L`.  This is the
spec-side definition, to be compared with `decomposeSizes`. -/
def greedySizesF (L : Nat) : Nat → Nat → List Nat
  | 0, _ => []
  | _ + 1, 0 => []
  | f + 1, n + 1 => min (n + 1) L :: greedySizesF L f ((n + 1) - min (n + 1) L)

/-- Spec-side greedy decomposition of a run of length `n`. -/
def greedySizes (L n : Nat) : List Nat := greedySizesF L n n

/-! ## `DiffViewer.vue` -/

/-- One element of the `lines` array built by `diffCode`:
`{ txt, cls }` with `cls` one of `""`, `"added"`, `"removed"`. -/
structure DiffLine where
  txt : List Char
  cls : String
deriving DecidableEq, Repr

/-- JavaScript `text.split('\n')`: splitting the empty string yields
`[""]`, and a trailing newline yields a trailing empty piece. -/
def splitNl : List Char → List (List Char)
  | [] => [[]]
  | c :: rest =>
    if c = '\n' then [] :: splitNl rest
    else
      match splitNl rest with
      | [] => [[c]]
      | a :: as => (c :: a) :: as

/-- The `cls` computed by `diffCode` from a fragment state
(`ADDED = 1`, `REMOVED = -1`). -/
def clsOf (state : Int) : String :=
  if state = 1 then "added" else if state = -1 then "removed" else ""

/-- Embedding of the `diff.forEach` body of `diffCode` for a single
fragment `[state, text]`: split the text on newlines and push each piece,
except that the first piece replaces a trailing empty line left by the
previous fragment (`i === 0 && lines.length > 0 && last(lines).txt === ''`). -/
def pushFragment (lines : List DiffLine) (state : Int) (text : List Char) :
    List DiffLine :=
  (splitNl text).enum.foldl
    (fun acc p =>
      let line : DiffLine := ⟨p.2, clsOf state⟩
      if p.1 = 0 ∧ acc ≠ [] ∧ acc.getLast?.map DiffLine.txt = some [] then
        acc.dropLast ++ [line]
      else acc ++ [line])
    lines

/-- The `lines` array after the `diff.forEach` loop of `diffCode`. -/
def makeLines (diff : List (Int × List Char)) : List DiffLine :=
  diff.foldl (fun lines frag => pushFragment lines frag.1 frag.2) []

/-- Modelled from the spec: the `$htmlEscape` helper called by `diffCode`
is not part of the provided sources; the spec says all text is escaped
for safe embedding in markup, so this applies the standard HTML escapes
for `&`, `<` and `>`. -/
def htmlEscape (l : List Char) : List Char :=
  l.flatMap fun c =>
    if c = '&' then "&amp;".data
    else if c = '<' then "&lt;".data
    else if c = '>' then "&gt;".data
    else [c]

/-- The tail of `diffCode` after the fragment loop: escape every line's
text, then apply `visualizeWhitespace` to every line only when there are
fewer than 5000 lines. -/
def diffCodeLines (diff : List (Int × List Char)) : List DiffLine :=
  let lines := (makeLines diff).map fun l => ⟨htmlEscape l.txt, l.cls⟩
  if lines.length < 5000 then
    lines.map fun l => ⟨visualizeWhitespace l.txt, l.cls⟩
  else lines

/-- Embedding of `getChangedParts` (with `end = lines.length`): fold over
the lines with their indices; for each changed line either start a new
part `[startLine, endLine)` or, when `last(res)[1] > startLine - 2`,
extend the last part.  Index arithmetic that can go below zero in
JavaScript (`i - context` is clamped by `Math.max(_, 0)`, mirrored by
truncated `Nat` subtraction; `startLine - 2` is not clamped, so the
comparison is taken over `Int`). -/
def getChangedParts (context : Nat) (lines : List DiffLine) :
    List (Nat × Nat) :=
  let e := lines.length
  lines.enum.foldl
    (fun res p =>
      let startLine := p.1 - context
      let endLine := min (p.1 + context + 1) e
      if p.2.cls ≠ "" then
        match res.getLast? with
        | none => res ++ [(startLine, endLine)]
        | some l =>
          if (l.2 : Int) > (startLine : Int) - 2 then
            res.dropLast ++ [(l.1, endLine)]
          else res ++ [(startLine, endLine)]
      else res)
    []

/-- Modelled from the spec: `diff_linesToChars_` of the external
diff-match-patch library splits a text into lines, each line keeping its
trailing newline (no empty final piece for a trailing newline). -/
def splitKeep : List Char → List (List Char)
  | [] => []
  | c :: rest =>
    if c = '\n' then [c] :: splitKeep rest
    else
      match splitKeep rest with
      | [] => [[c]]
      | a :: as => (c :: a) :: as

/-- Number of non-equal entries of an edit script (used to pick a
minimal script in the diff model below). -/
def editCost (l : List (Int × List Char)) : Nat :=
  l.countP fun p => p.1 != 0

/-- Modelled from the spec: a minimal line-level edit script, standing in
for `diff_main` of the external diff-match-patch library (fuel-indexed;
`xs.length + ys.length` suffices).  Deletions come before insertions, as
in the library and in the worked example documented inside `diffCode`. -/
def diffSeqF : Nat → List (List Char) → List (List Char) →
    List (Int × List Char)
  | 0, _, _ => []
  | _ + 1, [], ys => ys.map fun y => (1, y)
  | _ + 1, x :: xs, [] => (x :: xs).map fun z => (-1, z)
  | f + 1, x :: xs, y :: ys =>
    if x = y then (0, x) :: diffSeqF f xs ys
    else
      let d1 := (-1, x) :: diffSeqF f xs (y :: ys)
      let d2 := (1, y) :: diffSeqF f (x :: xs) ys
      if editCost d1 ≤ editCost d2 then d1 else d2

/-- Modelled from the spec: merge adjacent fragments with the same state,
as `diff_charsToLines_` plus the library's cleanup produce maximal
fragments. -/
def groupFrags : List (Int × List Char) → List (Int × List Char)
  | [] => []
  | (s, t) :: rest =>
    match groupFrags rest with
    | [] => [(s, t)]
    | (s2, t2) :: rs =>
      if s = s2 then (s, t ++ t2) :: rs else (s, t) :: (s2, t2) :: rs

/-- Modelled from the spec: the `diffText` helper inside `diffCode`
(line-granularity diff of the two texts via the external diff-match-patch
library). -/
def diffText (text1 text2 : List Char) : List (Int × List Char) :=
  groupFrags
    (diffSeqF ((splitKeep text1).length + (splitKeep text2).length)
      (splitKeep text1) (splitKeep text2))

/-- The shape of a failed HTTP response as destructured by `getCode`:
`({ response: { data: { message } } })`. -/
structure ServerError where
  message : String
deriving DecidableEq, Repr

/-- The component state touched by `getCode`: `error` is the string shown
in the alert (`''` meaning no error), `lines` the computed diff lines,
`loading` the spinner flag. -/
structure ViewState where
  error : String
  lines : List DiffLine
  loading : Bool
deriving DecidableEq, Repr

/-- Embedding of `getCode`, applied to the settled outcome of the two
content fetches.  On fulfilment, decode both buffers; if either decode
throws, set the inline error and return without touching `lines`;
otherwise store the diff.  On rejection, show the server-provided
`message`.  The trailing `.then` always clears `loading`. -/
def getCode (decode : List Nat → Except Unit (List Char)) (st : ViewState)
    (result : Except ServerError (List Nat × List Nat)) : ViewState :=
  match result with
  | .error e => { st with error := e.message, loading := false }
  | .ok (orig, rev) =>
    match decode orig, decode rev with
    | .ok origCode, .ok revCode =>
      { error := "", lines := diffCodeLines (diffText origCode revCode),
        loading := false }
    | _, _ =>
      { st with error := "This file cannot be displayed", loading := false }

/-! ## `SubmitInput.vue` and `UserInfo.vue` -/

/-- Outcome of a `submit` handler: a synchronously thrown `Error`, or the
pending promise handed to the submit button. -/
inductive SubmitOutcome
  | thrown (msg : String)
  | pending
deriving DecidableEq, Repr

/-- Embedding of `SubmitInput.submit`: throw when the name is the empty
string or null-ish (`this.name === '' || this.name == null`), otherwise
return the pending promise that resolves through the `create` event. -/
def submitInput_submit (name : Option String) : SubmitOutcome :=
  if name = some "" ∨ name = none then .thrown "Please give a name"
  else .pending

/-- The form fields read by `UserInfo.submit`. -/
structure UserInfoState where
  name : String
  email : String
  oldPw : String
  newPw : String
  confirmPw : String
deriving DecidableEq, Repr

/-- Outcome of `UserInfo.submit`: a synchronously thrown `Error`, or the
dispatched `user/updateUserInfo` action with its payload. -/
inductive UserInfoOutcome
  | thrown (msg : String)
  | dispatched (name email oldPw newPw : String)
deriving DecidableEq, Repr

/-- Embedding of `UserInfo.submit`, parametrised by the external
`email-validator`'s `validate`: first check the password confirmation,
then the email, then dispatch the update. -/
def userInfo_submit (validate : String → Bool) (st : UserInfoState) :
    UserInfoOutcome :=
  if st.newPw ≠ st.confirmPw then
    .thrown "New password does not match confirm password."
  else if ¬ validate st.email then
    .thrown "The given email is not valid."
  else .dispatched st.name st.email st.oldPw st.newPw

/-- Whether a submit outcome is a synchronously thrown error. -/
def UserInfoOutcome.isThrown : UserInfoOutcome → Bool
  | .thrown _ => true
  | .dispatched _ _ _ _ => false

/-! ## Concrete line lists for the changed-region merge examples -/

/-- An unchanged line (empty `cls`). -/
def unchangedLine : DiffLine := ⟨[], ""⟩

/-- A changed line (class `added`; `removed` behaves identically in
`getChangedParts`, which only tests `cls !== ''`). -/
def addedLine : DiffLine := ⟨[], "added"⟩

/-- Eight lines whose changed lines are exactly indices 2, 3, 5, 6, so
that with context 0 the changed ranges are `[2,4)` and `[5,7)`. -/
def mergeExampleClose : List DiffLine :=
  [unchangedLine, unchangedLine, addedLine, addedLine, unchangedLine,
    addedLine, addedLine, unchangedLine]

/-- Eight lines whose changed lines are exactly indices 2, 3, 6, 7, so
that with context 0 the changed ranges are `[2,4)` and `[6,8)`, two
apart. -/
def mergeExampleFar : List DiffLine :=
  [unchangedLine, unchangedLine, addedLine, addedLine, unchangedLine,
    unchangedLine, addedLine, addedLine]

/-! ## General-purpose lemmas -/

theorem foldl_invariant {α β : Type} (P : β → Prop) (f : β → α → β)
    (l : List α) : ∀ init : β, P init → (∀ b a, a ∈ l → P b → P (f b a)) →
    P (l.foldl f init) := by
  induction l with
  | nil => intro init h0 _; exact h0
  | cons a l ih =>
    intro init h0 hstep
    exact ih _ (hstep _ _ (by simp) h0)
      fun b x hx hb => hstep b x (by simp [hx]) hb

theorem foldl_fixed {α β : Type} (f : β → α → β) (l : List α)
    (h : ∀ a ∈ l, ∀ b, f b a = b) : ∀ init : β, l.foldl f init = init := by
  induction l with
  | nil => intro init; rfl
  | cons a l ih =>
    intro init
    rw [List.foldl_cons, h a (by simp), ih fun x hx => h x (by simp [hx])]

theorem takeWhile_split {α : Type} (p : α → Bool) (a rest : List α)
    (ha : ∀ x ∈ a, p x = true)
    (hrest : ∀ y, rest.head? = some y → p y = false) :
    (a ++ rest).takeWhile p = a ∧ (a ++ rest).dropWhile p = rest := by
  induction a with
  | nil =>
    simp only [List.nil_append]
    cases rest with
    | nil => exact ⟨rfl, rfl⟩
    | cons y t =>
      have hy := hrest y rfl
      exact ⟨by simp [List.takeWhile_cons, hy], by simp [List.dropWhile_cons, hy]⟩
  | cons x a ih =>
    have hx := ha x (by simp)
    have ih2 := ih fun z hz => ha z (by simp [hz])
    exact ⟨by simp [List.takeWhile_cons, hx, ih2.1],
      by simp [List.dropWhile_cons, hx, ih2.2]⟩

/-! ## Lemmas about the whitespace decomposition loop -/

theorem cacheIndex_pos (L n : Nat) (hn : 1 ≤ n) : 1 ≤ cacheIndex L n := by
  unfold cacheIndex
  split
  · rename_i h
    rcases Nat.eq_zero_or_pos L with hL | hL
    · subst hL; rw [Nat.mod_zero] at h; omega
    · exact hL
  · rename_i h; omega

theorem cacheIndex_le (L n : Nat) (hL : 1 ≤ L) : cacheIndex L n ≤ L := by
  unfold cacheIndex
  split
  · exact Nat.le_refl L
  · exact Nat.le_of_lt (Nat.mod_lt _ hL)

theorem cacheIndex_le_self (L n : Nat) (hn : 1 ≤ n) : cacheIndex L n ≤ n := by
  unfold cacheIndex
  split
  · rename_i h
    rcases Nat.eq_zero_or_pos L with hL | hL
    · simp [hL]
    · exact Nat.le_of_dvd hn (Nat.dvd_of_mod_eq_zero h)
  · exact Nat.mod_le n L

theorem decomposeSizesF_zero (L f : Nat) : decomposeSizesF L f 0 = [] := by
  cases f <;> rfl

theorem decomposeSizesF_eq_of_le (L : Nat) :
    ∀ f₁ f₂ n : Nat, n ≤ f₁ → n ≤ f₂ →
      decomposeSizesF L f₁ n = decomposeSizesF L f₂ n := by
  intro f₁
  induction f₁ with
  | zero =>
    intro f₂ n h₁ _
    have hn : n = 0 := by omega
    subst hn
    rw [decomposeSizesF_zero, decomposeSizesF_zero]
  | succ f ih =>
    intro f₂ n h₁ h₂
    cases n with
    | zero => rw [decomposeSizesF_zero, decomposeSizesF_zero]
    | succ m =>
      cases f₂ with
      | zero => omega
      | succ g =>
        have hpos := cacheIndex_pos L (m + 1) (by omega)
        simp only [decomposeSizesF]
        rw [ih g ((m + 1) - cacheIndex L (m + 1)) (by omega) (by omega)]

theorem decomposeSizes_succ (L n : Nat) (hn : 1 ≤ n) :
    decomposeSizes L n =
      cacheIndex L n :: decomposeSizes L (n - cacheIndex L n) := by
  cases n with
  | zero => omega
  | succ m =>
    have hpos := cacheIndex_pos L (m + 1) (by omega)
    show decomposeSizesF L (m + 1) (m + 1) = _
    simp only [decomposeSizesF]
    rw [decomposeSizesF_eq_of_le L m ((m + 1) - cacheIndex L (m + 1))
      ((m + 1) - cacheIndex L (m + 1)) (by omega) (by omega)]
    rfl

theorem decomposeSizes_sum (L : Nat) : ∀ n, (decomposeSizes L n).sum = n := by
  intro n
  induction n using Nat.strong_induction_on with
  | _ n ih =>
    cases n with
    | zero => rfl
    | succ m =>
      rw [decomposeSizes_succ L (m + 1) (by omega), List.sum_cons,
        ih ((m + 1) - cacheIndex L (m + 1))
          (by have := cacheIndex_pos L (m + 1) (by omega); omega)]
      have := cacheIndex_le_self L (m + 1) (by omega)
      omega

theorem decomposeSizes_mem (L : Nat) (hL : 1 ≤ L) :
    ∀ n s, s ∈ decomposeSizes L n → 1 ≤ s ∧ s ≤ L := by
  intro n
  induction n using Nat.strong_induction_on with
  | _ n ih =>
    intro s hs
    cases n with
    | zero => simp [decomposeSizes, decomposeSizesF] at hs
    | succ m =>
      rw [decomposeSizes_succ L (m + 1) (by omega), List.mem_cons] at hs
      rcases hs with hs | hs
      · subst hs
        exact ⟨cacheIndex_pos L (m + 1) (by omega), cacheIndex_le L (m + 1) hL⟩
      · exact ih ((m + 1) - cacheIndex L (m + 1))
          (by have := cacheIndex_pos L (m + 1) (by omega); omega) s hs

/-! ## Lemmas about the `visualizeWhitespace` scanner -/

theorem vwGo_nil (f : Nat) : vwGo f [] = [] := by cases f <;> rfl

theorem vwGo_eq_of_le :
    ∀ f₁ f₂ : Nat, ∀ l : List Char, l.length ≤ f₁ → l.length ≤ f₂ →
      vwGo f₁ l = vwGo f₂ l := by
  intro f₁
  induction f₁ with
  | zero =>
    intro f₂ l h₁ _
    have hl : l = [] := List.eq_nil_of_length_eq_zero (by omega)
    subst hl
    rw [vwGo_nil, vwGo_nil]
  | succ f ih =>
    intro f₂ l h₁ h₂
    cases l with
    | nil => rw [vwGo_nil, vwGo_nil]
    | cons c rest =>
      cases f₂ with
      | zero => simp at h₂
      | succ g =>
        have hrf : rest.length ≤ f := by simp at h₁; omega
        have hrg : rest.length ≤ g := by simp at h₂; omega
        simp only [vwGo]
        by_cases hc : c = '<'
        · rw [if_pos hc, if_pos hc]
          have hb : (rest.dropWhile fun d => d != '>').length ≤ rest.length :=
            (List.dropWhile_sublist _).length_le
          by_cases hemp : (rest.dropWhile fun d => d != '>').isEmpty
          · rw [if_pos hemp, if_pos hemp]
          · rw [if_neg hemp, if_neg hemp]
            have ht : (rest.dropWhile fun d => d != '>').tail.length ≤ rest.length := by
              rw [List.length_tail]; omega
            rw [ih g _ (by omega) (by omega)]
        · rw [if_neg hc, if_neg hc]
          by_cases hw : (decide (c = ' ') || decide (c = '\t')) = true
          · rw [if_pos hw, if_pos hw]
            have hd : (rest.dropWhile fun d => d == c).length ≤ rest.length :=
              (List.dropWhile_sublist _).length_le
            rw [ih g _ (by omega) (by omega)]
          · rw [if_neg hw, if_neg hw]
            have hd : (rest.dropWhile notSpecial).length ≤ rest.length :=
              (List.dropWhile_sublist _).length_le
            rw [ih g _ (by omega) (by omega)]

theorem vwSegs_eq_vwGo (f : Nat) (l : List Char) (h : l.length ≤ f) :
    vwSegs l = vwGo f l :=
  vwGo_eq_of_le l.length f l (Nat.le_refl _) h

/-- Unfolding of `vwSegs` at a run of whitespace: a maximal run of `n`
copies of `c` (a space or tab) contributes the cache entries selected by
`decomposeSizes`, and scanning resumes after the run. -/
theorem vwSegs_run (c : Char) (n : Nat) (rest : List Char)
    (hc : c = ' ' ∨ c = '\t') (hn : 1 ≤ n)
    (hr : ∀ y, rest.head? = some y → y ≠ c) :
    vwSegs (List.replicate n c ++ rest) =
      ((decomposeSizes (if c = ' ' then spacesCache else tabsCache).length n).map
        fun s => (if c = ' ' then spacesCache else tabsCache).getD (s - 1) [])
        ++ vwSegs rest := by
  obtain ⟨m, rfl⟩ : ∃ m, n = m + 1 := ⟨n - 1, by omega⟩
  have hsplit := takeWhile_split (fun d => d == c) (List.replicate m c) rest
    (fun x hx => by rw [List.eq_of_mem_replicate hx]; simp)
    (fun y hy => by have := hr y hy; simp [this])
  have hlt : ¬ c = '<' := by rcases hc with hc | hc <;> subst hc <;> decide
  have hw : (decide (c = ' ') || decide (c = '\t')) = true := by
    rcases hc with hc | hc <;> subst hc <;> decide
  rw [List.replicate_succ, List.cons_append,
    vwSegs_eq_vwGo ((List.replicate m c ++ rest).length + 1) _ (by simp)]
  simp only [vwGo, if_neg hlt, if_pos hw]
  rw [hsplit.1, hsplit.2, List.length_replicate]
  rw [vwGo_eq_of_le (List.replicate m c ++ rest).length rest.length rest
    (by simp) (Nat.le_refl _)]
  rfl

/-- Unfolding of `vwSegs` at a tag: from `<` everything up to and
including the first `>` is copied as one verbatim segment, and scanning
resumes after the `>`. -/
theorem vwSegs_tag (a rest : List Char) (ha : '>' ∉ a) :
    vwSegs (('<' :: a) ++ '>' :: rest) = (('<' :: a) ++ ['>']) :: vwSegs rest := by
  have hsplit := takeWhile_split (fun d => d != '>') a ('>' :: rest)
    (fun x hx => by
      have : x ≠ '>' := fun hxe => ha (hxe ▸ hx)
      simp [this])
    (fun y hy => by
      simp only [List.head?_cons, Option.some.injEq] at hy
      subst hy
      simp)
  rw [List.cons_append,
    vwSegs_eq_vwGo ((a ++ '>' :: rest).length + 1) _ (by simp)]
  simp only [vwGo, if_pos rfl]
  rw [hsplit.1, hsplit.2]
  simp only [List.isEmpty_cons, List.tail_cons]
  rw [vwGo_eq_of_le (a ++ '>' :: rest).length rest.length rest (by simp; omega)
    (Nat.le_refl _)]
  rfl

/-- On a line with no space, no tab and no `<`, `visualizeWhitespace` is
the identity. -/
theorem vw_eq_self (line : List Char)
    (h : ∀ c ∈ line, c ≠ ' ' ∧ c ≠ '\t' ∧ c ≠ '<') :
    visualizeWhitespace line = line := by
  cases line with
  | nil => rfl
  | cons c rest =>
    obtain ⟨hc1, hc2, hc3⟩ := h c (by simp)
    have hsplit := takeWhile_split notSpecial rest []
      (fun x hx => by
        obtain ⟨h1, h2, h3⟩ := h x (by simp [hx])
        simp [notSpecial, h1, h2, h3])
      (fun y hy => by simp at hy)
    rw [List.append_nil] at hsplit
    have hw : ¬ (decide (c = ' ') || decide (c = '\t')) = true := by
      simp [hc1, hc2]
    show (vwGo (c :: rest).length (c :: rest)).flatten = c :: rest
    simp only [List.length_cons, vwGo, if_neg hc3, if_neg hw]
    rw [hsplit.1, hsplit.2, vwGo_nil]
    simp

theorem spacesCache_getD (s : Nat) (h1 : 1 ≤ s) (h2 : s ≤ spacesCache.length) :
    spacesCache.getD (s - 1) [] = nSpaces s := by
  have hlen : spacesCache.length = 8 := by rfl
  rw [hlen] at h2
  interval_cases s <;> rfl

theorem tabsCache_getD (s : Nat) (h1 : 1 ≤ s) (h2 : s ≤ tabsCache.length) :
    tabsCache.getD (s - 1) [] = nTabs s := by
  have hlen : tabsCache.length = 4 := by rfl
  rw [hlen] at h2
  interval_cases s <;> rfl

/-! ## Lemmas about the diff pipeline -/

theorem diffSeqF_self :
    ∀ f : Nat, ∀ xs : List (List Char), xs.length ≤ f →
      diffSeqF f xs xs = xs.map fun x => (0, x) := by
  intro f
  induction f with
  | zero =>
    intro xs h
    have hx : xs = [] := List.eq_nil_of_length_eq_zero (by omega)
    subst hx
    rfl
  | succ f ih =>
    intro xs h
    cases xs with
    | nil => rfl
    | cons x t =>
      have ht := ih t (by simp at h; omega)
      simp [diffSeqF, ht]

theorem groupFrags_state_zero (l : List (Int × List Char))
    (h : ∀ p ∈ l, p.1 = 0) : ∀ p ∈ groupFrags l, p.1 = 0 := by
  induction l with
  | nil => simp [groupFrags]
  | cons q rest ih =>
    obtain ⟨s, t⟩ := q
    have hs : s = 0 := h (s, t) (by simp)
    have hrest := ih fun p hp => h p (by simp [hp])
    intro p hp
    cases hgf : groupFrags rest with
    | nil =>
      have heq : groupFrags ((s, t) :: rest) = [(s, t)] := by
        simp only [groupFrags]
        rw [hgf]
      rw [heq] at hp
      simp at hp
      subst hp
      exact hs
    | cons q2 rs =>
      obtain ⟨s2, t2⟩ := q2
      have hs2 : s2 = 0 := hrest (s2, t2) (by rw [hgf]; simp)
      have heq : groupFrags ((s, t) :: rest) =
          if s = s2 then (s, t ++ t2) :: rs else (s, t) :: (s2, t2) :: rs := by
        simp only [groupFrags]
        rw [hgf]
      rw [heq] at hp
      by_cases he : s = s2
      · rw [if_pos he] at hp
        rcases List.mem_cons.mp hp with hp2 | hp2
        · subst hp2; exact hs
        · exact hrest p (by rw [hgf]; exact List.mem_cons_of_mem _ hp2)
      · rw [if_neg he] at hp
        rcases List.mem_cons.mp hp with hp2 | hp2
        · subst hp2; exact hs
        · exact hrest p (by rw [hgf]; exact hp2)

theorem diffText_self_states (text : List Char) :
    ∀ p ∈ diffText text text, p.1 = 0 := by
  unfold diffText
  rw [diffSeqF_self ((splitKeep text).length + (splitKeep text).length)
    (splitKeep text) (by omega)]
  apply groupFrags_state_zero
  intro p hp
  obtain ⟨x, _, rfl⟩ := List.mem_map.mp hp
  rfl

theorem pushFragment_cls (lines : List DiffLine) (text : List Char)
    (h : ∀ l ∈ lines, l.cls = "") :
    ∀ l ∈ pushFragment lines 0 text, l.cls = "" := by
  unfold pushFragment
  apply foldl_invariant (P := fun acc => ∀ l ∈ acc, l.cls = "") _ _ lines h
  intro acc p hp hacc l hl
  dsimp only at hl
  split at hl
  · rcases List.mem_append.mp hl with hl2 | hl2
    · exact hacc l (List.mem_of_mem_dropLast hl2)
    · simp at hl2
      rw [hl2]
      rfl
  · rcases List.mem_append.mp hl with hl2 | hl2
    · exact hacc l hl2
    · simp at hl2
      rw [hl2]
      rfl

theorem makeLines_cls (diff : List (Int × List Char))
    (h : ∀ p ∈ diff, p.1 = 0) : ∀ l ∈ makeLines diff, l.cls = "" := by
  unfold makeLines
  apply foldl_invariant (P := fun acc : List DiffLine => ∀ l ∈ acc, l.cls = "")
    _ _ ([] : List DiffLine) (by simp)
  intro acc p hp hacc
  rw [h p hp]
  exact pushFragment_cls acc p.2 hacc

theorem diffCodeLines_cls (diff : List (Int × List Char))
    (h : ∀ p ∈ diff, p.1 = 0) : ∀ l ∈ diffCodeLines diff, l.cls = "" := by
  have hm := makeLines_cls diff h
  intro l hl
  unfold diffCodeLines at hl
  dsimp only at hl
  split at hl
  · obtain ⟨l2, hl2, rfl⟩ := List.mem_map.mp hl
    obtain ⟨l3, hl3, rfl⟩ := List.mem_map.mp hl2
    exact hm l3 hl3
  · obtain ⟨l3, hl3, rfl⟩ := List.mem_map.mp hl
    exact hm l3 hl3

theorem getChangedParts_of_unchanged (context : Nat) (lines : List DiffLine)
    (h : ∀ l ∈ lines, l.cls = "") : getChangedParts context lines = [] := by
  unfold getChangedParts
  apply foldl_fixed
  intro p hp res
  have : p.2.cls = "" := by
    apply h
    rw [List.mem_enum_iff_getElem?] at hp
    exact List.getElem?_mem hp
  simp [this]

theorem getChangedParts_chain (context : Nat) (lines : List DiffLine) :
    List.Chain' (fun a b : Nat × Nat => (a.2 : Int) ≤ (b.1 : Int) - 2)
      (getChangedParts context lines) := by
  unfold getChangedParts
  apply foldl_invariant
    (P := fun res => List.Chain' (fun a b : Nat × Nat => (a.2 : Int) ≤ (b.1 : Int) - 2) res)
    _ _ _ List.chain'_nil
  intro res p hp hres
  dsimp only
  split
  · cases hlast : res.getLast? with
    | none =>
      have hre : res = [] := by
        cases res with
        | nil => rfl
        | cons x xs => rw [List.getLast?_eq_getLast _ (by simp)] at hlast; simp at hlast
      subst hre
      simp
    | some l =>
      have hne : res ≠ [] := by
        intro he
        subst he
        simp at hlast
      have hdec : res.dropLast ++ [l] = res := by
        have h1 := List.dropLast_append_getLast hne
        have h2 : res.getLast hne = l := by
          rw [List.getLast?_eq_getLast _ hne] at hlast
          exact Option.some.inj hlast
        rw [h2] at h1
        exact h1
      dsimp only
      split
      · rw [← hdec] at hres
        rw [List.chain'_append] at hres ⊢
        refine ⟨hres.1, List.chain'_singleton _, ?_⟩
        intro x hx y hy
        simp only [List.head?_cons, Option.mem_def, Option.some.injEq] at hy
        subst hy
        have hxl := hres.2.2 x hx l (by simp)
        simpa using hxl
      · rename_i hgt
        rw [List.chain'_append]
        refine ⟨hres, List.chain'_singleton _, ?_⟩
        intro x hx y hy
        rw [hlast] at hx
        simp only [Option.mem_def, Option.some.injEq] at hx
        simp only [List.head?_cons, Option.mem_def, Option.some.injEq] at hy
        subst hx
        subst hy
        simp only [not_lt] at hgt
        omega
  · exact hres

/-! ## Claims -/

set_option maxRecDepth 100000

/-- C1 counterexample: for a run of 9 identical spaces the code first
emits the cache entry of size `9 % 8 = 1` and then the size-8 entry, so
at the first step it does not choose the largest cache entry size (8)
not exceeding the remaining run length (9): the emitted segments differ
from the greedy decomposition. -/
theorem visualizeWhitespace_greedy_counterexample :
    vwSegs (List.replicate 9 ' ') = [nSpaces 1, nSpaces 8] ∧
    decomposeSizes spacesCache.length 9 = [1, 8] ∧
    greedySizes spacesCache.length 9 = [8, 1] ∧
    vwSegs (List.replicate 9 ' ') ≠ (greedySizes spacesCache.length 9).map nSpaces :=
  ⟨by decide, by decide, by decide, by decide⟩

/-- C1 (amended): for every maximal run of `n ≥ 1` identical whitespace
characters, `visualizeWhitespace` emits the cache entries whose sizes
are produced by repeatedly taking `r % cacheLength`, or `cacheLength`
when that remainder is zero (`r` being the remaining run length) — the
remainder-sized entry first, then maximal-size entries — rather than the
greedy largest-entry-first order. -/
theorem visualizeWhitespace_run_remainder_first (c : Char) (n : Nat)
    (rest : List Char) (hc : c = ' ' ∨ c = '\t') (hn : 1 ≤ n)
    (hr : ∀ y, rest.head? = some y → y ≠ c) :
    vwSegs (List.replicate n c ++ rest) =
      ((decomposeSizes (if c = ' ' then spacesCache else tabsCache).length n).map
        fun s => (if c = ' ' then spacesCache else tabsCache).getD (s - 1) [])
        ++ vwSegs rest ∧
    ∀ r, 1 ≤ r →
      decomposeSizes (if c = ' ' then spacesCache else tabsCache).length r =
        cacheIndex (if c = ' ' then spacesCache else tabsCache).length r ::
          decomposeSizes (if c = ' ' then spacesCache else tabsCache).length
            (r - cacheIndex (if c = ' ' then spacesCache else tabsCache).length r) :=
  ⟨vwSegs_run c n rest hc hn hr, fun r hr2 => decomposeSizes_succ _ r hr2⟩

theorem visualizeWhitespace_run_remainder_first_witness :
    vwSegs (List.replicate 9 ' ' ++ []) =
      ((decomposeSizes (if ' ' = ' ' then spacesCache else tabsCache).length 9).map
        fun s => (if ' ' = ' ' then spacesCache else tabsCache).getD (s - 1) [])
        ++ vwSegs [] :=
  (visualizeWhitespace_run_remainder_first ' ' 9 [] (Or.inl rfl) (by decide)
    (by intro y hy; simp at hy)).1

/-- C2: changed ranges `[2,4)` and `[5,7)` with context 0 merge into
`[2,7)` (gap `5 - 4 < 2`), changed ranges `[2,4)` and `[6,8)` with gap 2
remain separate, and in every result consecutive ranges are at least 2
apart (any closer pair has been merged). -/
theorem getChangedParts_merge_behavior :
    getChangedParts 0 mergeExampleClose = [(2, 7)] ∧
    getChangedParts 0 mergeExampleFar = [(2, 4), (6, 8)] ∧
    ∀ context : Nat, ∀ lines : List DiffLine,
      List.Chain' (fun a b : Nat × Nat => (a.2 : Int) ≤ (b.1 : Int) - 2)
        (getChangedParts context lines) :=
  ⟨by decide, by decide, getChangedParts_chain⟩

/-- C3: diffing `"hello\n\nbye"` against `"hello\n\nthomas"` produces
exactly four lines — unchanged `hello`, an unchanged blank line, removed
`bye` and added `thomas` — with no spurious extra blank line, because the
first piece of a fragment replaces the trailing empty line left by the
previous fragment. -/
theorem diffCode_fragment_merge :
    diffText "hello\n\nbye".data "hello\n\nthomas".data =
      [(0, "hello\n\n".data), (-1, "bye".data), (1, "thomas".data)] ∧
    makeLines (diffText "hello\n\nbye".data "hello\n\nthomas".data) =
      [⟨"hello".data, ""⟩, ⟨[], ""⟩, ⟨"bye".data, "removed"⟩,
        ⟨"thomas".data, "added"⟩] ∧
    diffCodeLines (diffText "hello\n\nbye".data "hello\n\nthomas".data) =
      [⟨"hello".data, ""⟩, ⟨[], ""⟩, ⟨"bye".data, "removed"⟩,
        ⟨"thomas".data, "added"⟩] :=
  ⟨by decide, by decide, by decide⟩

/-- C4: for every `n ≥ 1`, the cache entries emitted for a run of `n`
spaces are exactly the entries of the decomposition, whose sizes sum to
exactly `n` — the loop terminates and neither over- nor under-covers the
run. -/
theorem spaces_run_exact_cover (n : Nat) (hn : 1 ≤ n) :
    (decomposeSizes spacesCache.length n).sum = n ∧
    vwSegs (List.replicate n ' ') =
      (decomposeSizes spacesCache.length n).map nSpaces := by
  constructor
  · exact decomposeSizes_sum _ n
  · have hrun := vwSegs_run ' ' n [] (Or.inl rfl) hn (by intro y hy; simp at hy)
    have hif : (if ' ' = ' ' then spacesCache else tabsCache) = spacesCache := rfl
    rw [List.append_nil, hif] at hrun
    have hnil : vwSegs ([] : List Char) = [] := rfl
    rw [hnil, List.append_nil] at hrun
    rw [hrun]
    apply List.map_congr_left
    intro s hs
    have hb := decomposeSizes_mem spacesCache.length (by decide) n s hs
    exact spacesCache_getD s hb.1 hb.2

theorem spaces_run_exact_cover_witness :
    (decomposeSizes spacesCache.length 3).sum = 3 ∧
    vwSegs (List.replicate 3 ' ') =
      (decomposeSizes spacesCache.length 3).map nSpaces :=
  spaces_run_exact_cover 3 (by decide)

/-- C5: diffing any text against itself yields a line list in which no
line is tagged added or removed, and `getChangedParts` consequently
returns zero changed ranges. -/
theorem diff_identical_no_changes (text : List Char) (context : Nat) :
    (diffCodeLines (diffText text text)).all (fun l => l.cls == "") = true ∧
    getChangedParts context (diffCodeLines (diffText text text)) = [] := by
  have h2 := diffCodeLines_cls (diffText text text) (diffText_self_states text)
  constructor
  · rw [List.all_eq_true]
    intro l hl
    have hc := h2 l hl
    simp [hc]
  · exact getChangedParts_of_unchanged context _ h2

/-- C6: when either fetched buffer fails to decode, `getCode` shows the
inline error `This file cannot be displayed` and leaves the diff lines
untouched; when the fetch itself fails, the error shown is the `message`
field of the server's error response body. -/
theorem getCode_error_handling (decode : List Nat → Except Unit (List Char))
    (st : ViewState) (orig rev : List Nat) (e : ServerError)
    (hdec : decode orig = .error () ∨ decode rev = .error ()) :
    (getCode decode st (.ok (orig, rev))).error = "This file cannot be displayed" ∧
    (getCode decode st (.ok (orig, rev))).lines = st.lines ∧
    (getCode decode st (.error e)).error = e.message := by
  have key : (getCode decode st (.ok (orig, rev))).error =
      "This file cannot be displayed" ∧
      (getCode decode st (.ok (orig, rev))).lines = st.lines := by
    rcases hdo : decode orig with u | oc <;> rcases hdr : decode rev with u2 | rc
    · exact ⟨by simp [getCode, hdo, hdr], by simp [getCode, hdo, hdr]⟩
    · exact ⟨by simp [getCode, hdo, hdr], by simp [getCode, hdo, hdr]⟩
    · exact ⟨by simp [getCode, hdo, hdr], by simp [getCode, hdo, hdr]⟩
    · exfalso
      rcases hdec with h | h
      · rw [hdo] at h; exact Except.noConfusion h
      · rw [hdr] at h; exact Except.noConfusion h
  exact ⟨key.1, key.2, rfl⟩

theorem getCode_error_handling_witness :
    (getCode (fun _ => Except.error ()) ⟨"", [], true⟩ (.ok ([1], []))).error =
      "This file cannot be displayed" ∧
    (getCode (fun _ => Except.error ()) ⟨"", [], true⟩ (.ok ([1], []))).lines =
      (⟨"", [], true⟩ : ViewState).lines ∧
    (getCode (fun _ => Except.error ()) ⟨"", [], true⟩ (.error ⟨"msg"⟩)).error =
      "msg" :=
  getCode_error_handling (fun _ => Except.error ()) ⟨"", [], true⟩ [1] []
    ⟨"msg"⟩ (Or.inl rfl)

/-- C7: on encountering `<`, the input through the matching `>` is copied
verbatim into the output, as one segment, with no re-escaping and no
whitespace substitution inside the copied tag; scanning resumes after the
`>`. -/
theorem visualizeWhitespace_copies_tags (a rest : List Char) (ha : '>' ∉ a) :
    vwSegs (('<' :: a) ++ '>' :: rest) = (('<' :: a) ++ ['>']) :: vwSegs rest ∧
    visualizeWhitespace (('<' :: a) ++ '>' :: rest) =
      (('<' :: a) ++ ['>']) ++ visualizeWhitespace rest := by
  have h1 := vwSegs_tag a rest ha
  refine ⟨h1, ?_⟩
  unfold visualizeWhitespace
  rw [h1]
  simp

theorem visualizeWhitespace_copies_tags_witness :
    (vwSegs (('<' :: [' ', 'a']) ++ '>' :: ['b']) =
      (('<' :: [' ', 'a']) ++ ['>']) :: vwSegs ['b']) ∧
    visualizeWhitespace (('<' :: [' ', 'a']) ++ '>' :: ['b']) =
      (('<' :: [' ', 'a']) ++ ['>']) ++ visualizeWhitespace ['b'] :=
  visualizeWhitespace_copies_tags [' ', 'a'] ['b'] (by decide)

/-- C8: on an input containing no space, no tab and no tag characters,
`visualizeWhitespace` is the identity, hence idempotent. -/
theorem visualizeWhitespace_idempotent_plain (line : List Char)
    (h : line.all (fun c => c != ' ' && c != '\t' && c != '<' && c != '>') = true) :
    visualizeWhitespace (visualizeWhitespace line) = visualizeWhitespace line := by
  have h2 : ∀ c ∈ line, c ≠ ' ' ∧ c ≠ '\t' ∧ c ≠ '<' := by
    intro c hc
    have hb := List.all_eq_true.mp h c hc
    simp at hb
    tauto
  rw [vw_eq_self line h2, vw_eq_self line h2]

theorem visualizeWhitespace_idempotent_plain_witness :
    visualizeWhitespace (visualizeWhitespace "abc".data) =
      visualizeWhitespace "abc".data :=
  visualizeWhitespace_idempotent_plain "abc".data (by decide)

/-- C9: `SubmitInput.submit` throws exactly when the name is empty or
null and otherwise returns the pending promise; `UserInfo.submit` throws
exactly when the new password differs from the confirmation or the email
fails validation, and dispatches the update with the form's fields when
both checks pass. -/
theorem submit_client_validation (name : Option String)
    (validate : String → Bool) (st : UserInfoState) :
    ((name = some "" ∨ name = none) →
      submitInput_submit name = .thrown "Please give a name") ∧
    (¬(name = some "" ∨ name = none) → submitInput_submit name = .pending) ∧
    (userInfo_submit validate st).isThrown =
      (st.newPw != st.confirmPw || !validate st.email) ∧
    (st.newPw = st.confirmPw → validate st.email = true →
      userInfo_submit validate st =
        .dispatched st.name st.email st.oldPw st.newPw) := by
  refine ⟨fun h => ?_, fun h => ?_, ?_, fun h1 h2 => ?_⟩
  · unfold submitInput_submit; rw [if_pos h]
  · unfold submitInput_submit; rw [if_neg h]
  · by_cases h1 : st.newPw = st.confirmPw <;>
      by_cases h2 : validate st.email <;>
      simp [userInfo_submit, h1, h2, UserInfoOutcome.isThrown]
  · simp [userInfo_submit, h1, h2]

theorem submit_client_validation_witness :
    (submitInput_submit (some "") = .thrown "Please give a name") ∧
    (submitInput_submit (some "ab") = .pending) ∧
    ((userInfo_submit (fun _ => true) ⟨"n", "e", "o", "p", "p"⟩).isThrown = false) ∧
    userInfo_submit (fun _ => true) ⟨"n", "e", "o", "p", "p"⟩ =
      .dispatched "n" "e" "o" "p" :=
  ⟨(submit_client_validation (some "") (fun _ => true)
      ⟨"n", "e", "o", "p", "p"⟩).1 (Or.inl rfl),
    (submit_client_validation (some "ab") (fun _ => true)
      ⟨"n", "e", "o", "p", "p"⟩).2.1 (by decide),
    (submit_client_validation (some "") (fun _ => true)
      ⟨"n", "e", "o", "p", "p"⟩).2.2.1,
    (submit_client_validation (some "") (fun _ => true)
      ⟨"n", "e", "o", "p", "p"⟩).2.2.2 rfl rfl⟩

/-- C10: `diffCode` HTML-escapes the text of every line unconditionally
and applies `visualizeWhitespace` to it exactly when the total number of
lines is strictly below 5000; at or above 5000 every line's text is the
escaped text with no whitespace marker spans. -/
theorem diffCode_escape_and_whitespace_threshold
    (diff : List (Int × List Char)) (i : Nat) :
    (diffCodeLines diff)[i]? =
      ((makeLines diff)[i]?).map fun l =>
        (⟨if (makeLines diff).length < 5000 then
            visualizeWhitespace (htmlEscape l.txt)
          else htmlEscape l.txt, l.cls⟩ : DiffLine) := by
  unfold diffCodeLines
  dsimp only
  by_cases h : (makeLines diff).length < 5000
  · rw [if_pos (by simpa using h)]
    simp only [List.getElem?_map, Option.map_map, h, if_true]
    cases hm : (makeLines diff)[i]? <;> simp
  · rw [if_neg (by simpa using h)]
    simp only [List.getElem?_map, h, if_false]

end CodeGrade
